import Mathlib

/-!
Verification development for `pyembedding.py`: a shallow embedding of the
core numeric pipeline (lagged-matrix construction, pairwise distances,
diagonal-band masking, nearest-neighbour search and the Nichkawde greedy
lag-selection loop), together with theorems settling the specification
claims about it.

Modelling conventions:
* IEEE floating-point values are modelled by `Fl α`: either a finite value
  `Fl.fin a` (with `a` rational for the executable layer, real for the
  stage that needs `sqrt`/`log`/`exp`), positive infinity `Fl.inf`, or the
  not-a-number sentinel `Fl.nan`.  Negative infinity never arises in the
  program (all masked quantities are distances, hence nonnegative), so it
  is not represented.
* Embedding matrices are functions `ℕ → ℕ → Option α`: `none` is the NaN
  sentinel placed by `make_partial_embedding` for out-of-range lagged
  entries.  Distance matrices are functions `ℕ → ℕ → Fl α`.
* numpy's `argpartition(v, range(k))[:k]` puts the `k` smallest entries of
  `v` first, in ascending order, with NaN ordered after every number; its
  tie order among equal values is unspecified and is modelled here as the
  stable (original-index) order, the order observed in the inline doctests.
-/

inductive Fl (α : Type) where
  | nan : Fl α
  | inf : Fl α
  | fin : α → Fl α
deriving DecidableEq

def Fl.isNan {α : Type} : Fl α → Bool
  | .nan => true
  | _ => false

def Fl.isFin {α : Type} : Fl α → Bool
  | .fin _ => true
  | _ => false

/-- Sort key used by numpy's partial sort: finite values by magnitude,
then `inf`, with `nan` ordered after everything. -/
def flSortLt {α : Type} [LT α] : Fl α → Fl α → Prop
  | .fin a, .fin b => a < b
  | .fin _, .inf => True
  | .fin _, .nan => True
  | .inf, .nan => True
  | _, _ => False

instance {α : Type} [LT α] [DecidableRel (· < · : α → α → Prop)] :
    ∀ a b : Fl α, Decidable (flSortLt a b) := by
  intro a b
  cases a <;> cases b <;> simp only [flSortLt] <;> infer_instance

/-- IEEE comparison `a > b` (used by `geo_mean_deriv > max_deriv`): any
comparison involving NaN is false. -/
def flGt {α : Type} [LT α] : Fl α → Fl α → Prop
  | .fin a, .fin b => b < a
  | .inf, .fin _ => True
  | _, _ => False

instance {α : Type} [LT α] [DecidableRel (· < · : α → α → Prop)] :
    ∀ a b : Fl α, Decidable (flGt a b) := by
  intro a b
  cases a <;> cases b <;> simp only [flGt] <;> infer_instance

/-- Embedding matrices: entry `none` is the NaN sentinel. -/
def EMat (α : Type) := ℕ → ℕ → Option α

/-- Distance matrices: entries are float values (finite, `inf` or `nan`). -/
def DMat (α : Type) := ℕ → ℕ → Fl α

/-- NaN-propagating addition on sentinel-valued entries. -/
def oadd {α : Type} [Add α] : Option α → Option α → Option α
  | some a, some b => some (a + b)
  | _, _ => none

/-- NaN-propagating subtraction on sentinel-valued entries. -/
def osub {α : Type} [Sub α] : Option α → Option α → Option α
  | some a, some b => some (a - b)
  | _, _ => none

/-- NaN-propagating multiplication on sentinel-valued entries. -/
def omul {α : Type} [Mul α] : Option α → Option α → Option α
  | some a, some b => some (a * b)
  | _, _ => none

/-- View a NaN-propagating sum as a float value. -/
def optToFl {α : Type} : Option α → Fl α
  | none => .nan
  | some a => .fin a

/-- Shallow embedding of `make_partial_embedding`'s slice assignment
`X[tau:, j] = x[:(N - tau)]`: row `i` of column `j` holds `x[i - tau]`
when `tau ≤ i` and the NaN sentinel otherwise. -/
def lagMatrix {α : Type} (x : ℕ → α) (taus : List ℕ) : EMat α :=
  fun i j =>
    match taus.get? j with
    | none => none
    | some tau => if tau ≤ i then some (x (i - tau)) else none

/-- Length of the python slice `x[:(N - tau)]` over a length-`N` array
(negative stops count from the end, clamped at 0). -/
def pySliceLen (N tau : ℕ) : ℕ :=
  if tau ≤ N then N - tau else 2 * N - tau

/-- The numpy assignment `X[tau:, j] = x[:(N - tau)]` succeeds exactly when
both sides have the same length (`N - tau` elements on the left). -/
def sliceShapesMatch (N tau : ℕ) : Bool :=
  N - tau == pySliceLen N tau

/-- Shallow embedding of `make_partial_embedding(x, taus, preserve_indices)`.
Returns the row count together with the entry function; `none` models the
numpy `ValueError` raised when a slice assignment's shapes mismatch
(lags in `(N, 2N)`) or `numpy.max` of an empty lag set. -/
def make_partial_embedding {α : Type} (x : ℕ → α) (N : ℕ) (taus : List ℕ)
    (preserve_indices : Bool) : Option (ℕ × EMat α) :=
  if taus.all (fun tau => sliceShapesMatch N tau) then
    let X := lagMatrix x taus
    if preserve_indices then some (N, X)
    else
      match taus with
      | [] => none
      | _ =>
        let m := taus.foldr max 0
        some (N - m, fun i j => X (i + m) j)
  else none

/-- Shallow embedding of `make_full_embedding(x, E, tau)`: lags
`0, tau, …, (E-1)·tau`; the `assert E > 0` / `assert tau > 0`
preconditions are modelled by returning `none`. -/
def make_full_embedding {α : Type} (x : ℕ → α) (N E tau : ℕ)
    (preserve_indices : Bool) : Option (ℕ × EMat α) :=
  if 0 < E ∧ 0 < tau then
    make_partial_embedding x N (List.range' 0 E tau) preserve_indices
  else none

/-- Shallow embedding of `squared_euclidean_distance(A, B)`:
`D[i,k] = Σ_c (B[k,c] - A[i,c])²`, NaN-propagating over sentinel entries;
`cols` is the (shared) column count of `A` and `B`. -/
def squared_euclidean_distance {α : Type} [Add α] [Sub α] [Mul α] [Zero α]
    (A B : EMat α) (cols : ℕ) : DMat α :=
  fun i k =>
    optToFl ((List.range cols).foldl
      (fun acc c => oadd acc (omul (osub (B k c) (A i c)) (osub (B k c) (A i c))))
      (some 0))

/-- Shallow embedding of `assign_diagonal(X, offset, val)`:
`X[i, i+offset] = val` for every row `i < rows` whose target column
`i + offset` is a valid column index. -/
def assign_diagonal {β : Type} (X : ℕ → ℕ → β) (rows cols : ℕ) (offset : ℤ)
    (val : β) : ℕ → ℕ → β :=
  fun i k =>
    if i < rows ∧ (k : ℤ) = (i : ℤ) + offset ∧ 0 ≤ (i : ℤ) + offset ∧
        (i : ℤ) + offset < (cols : ℤ) then val
    else X i k

/-- One pass of the Theiler-window masking loop of `nichkawde_embedding`:
`assign_diagonal(D, offset, val)` followed, for `offset > 0`, by
`assign_diagonal(D, -offset, val)`. -/
def maskStep {β : Type} (X : ℕ → ℕ → β) (rows cols offset : ℕ) (val : β) :
    ℕ → ℕ → β :=
  if offset = 0 then assign_diagonal X rows cols 0 val
  else
    assign_diagonal (assign_diagonal X rows cols (offset : ℤ) val) rows cols
      (-(offset : ℤ)) val

/-- The full masking loop `for offset in range(m): …` of
`nichkawde_embedding`. -/
def maskBand {β : Type} (X : ℕ → ℕ → β) (rows cols m : ℕ) (val : β) :
    ℕ → ℕ → β :=
  (List.range m).foldl (fun D o => maskStep D rows cols o val) X

/-- Shallow embedding of `D[D == 0.0] = float('inf')`. -/
def zeroToInf {α : Type} [Zero α] [DecidableEq α] (D : DMat α) : DMat α :=
  fun i k => if D i k = Fl.fin 0 then Fl.inf else D i k

/-- Index comparison used to model `numpy.argpartition(v, range(k))`:
order indices by their values (`flSortLt`), breaking ties by original
index (stable order, as observed in the source's doctests). -/
def idxKey {α : Type} [LT α] (v : ℕ → Fl α) (i j : ℕ) : Prop :=
  flSortLt (v i) (v j) ∨ (v i = v j ∧ i ≤ j)

instance {α : Type} [LT α] [DecidableEq α]
    [DecidableRel (· < · : α → α → Prop)] (v : ℕ → Fl α) :
    DecidableRel (idxKey v) := by
  intro i j
  unfold idxKey
  infer_instance

/-- Model of `numpy.argpartition(v, range(k))[:k]` over `v` of length `n`:
the first `k` indices of the value-sorted index list. -/
def argpartFirstK {α : Type} [LT α] [DecidableEq α]
    [DecidableRel (· < · : α → α → Prop)] (n : ℕ) (v : ℕ → Fl α) (k : ℕ) :
    List ℕ :=
  (List.insertionSort (idxKey v) (List.range n)).take k

/-- Shallow embedding of `find_neighbors(D, n_neighbors)` over an `n × n`
distance matrix: for each row `i`, `N[i] = argpartition(D[:,i], range(k))[:k]`
(selection over column `i`) and `DN[i] = D[i, N[i]]`. -/
def find_neighbors {α : Type} [LT α] [DecidableEq α]
    [DecidableRel (· < · : α → α → Prop)] (D : DMat α) (n k : ℕ) :
    (ℕ → List ℕ) × (ℕ → List (Fl α)) :=
  (fun i => argpartFirstK n (fun j => D j i) k,
   fun i => (argpartFirstK n (fun j => D j i) k).map (fun j => D i j))

/-- Elementwise square root (`numpy.sqrt`), NaN for negative arguments. -/
noncomputable def flSqrt : Fl ℝ → Fl ℝ
  | .nan => .nan
  | .inf => .inf
  | .fin a => if a < 0 then .nan else .fin (Real.sqrt a)

/-- Shallow embedding of `euclidean_distance` /
`numpy.sqrt(squared_euclidean_distance(A, B))`. -/
noncomputable def euclidean_distance (A B : EMat ℝ) (cols : ℕ) : DMat ℝ :=
  fun i k => flSqrt (squared_euclidean_distance A B cols i k)

/-- Column projection `X_full[:, taus]`. -/
def projCols {α : Type} (Xf : EMat α) (taus : List ℕ) : EMat α :=
  fun i j => Xf i (taus.getD j 0)

/-- The distance matrix of one `nichkawde_embedding` iteration, after the
exact-match pass `D[D == 0.0] = inf` and the Theiler masking loop
`for offset in range(neighbor_offset_min): …` (in that order). -/
noncomputable def iterD (Xf : EMat ℝ) (rows : ℕ) (taus : List ℕ) (m : ℕ) :
    DMat ℝ :=
  maskBand
    (zeroToInf
      (euclidean_distance (projCols Xf taus) (projCols Xf taus) taus.length))
    rows rows m Fl.nan

/-- Nearest-neighbour index `N[i, 0]` of one iteration
(`find_neighbors(D, 1)`). -/
noncomputable def iterN (Xf : EMat ℝ) (rows : ℕ) (taus : List ℕ) (m : ℕ) :
    ℕ → ℕ :=
  fun i => (((find_neighbors (iterD Xf rows taus m) rows 1).1) i).headD 0

/-- Nearest-neighbour distance `DN[i, 0]` of one iteration. -/
noncomputable def iterDN (Xf : EMat ℝ) (rows : ℕ) (taus : List ℕ) (m : ℕ) :
    ℕ → Fl ℝ :=
  fun i => (((find_neighbors (iterD Xf rows taus m) rows 1).2) i).headD Fl.nan

/-- `numpy.abs(Xnext - Xnext_N)`, NaN-propagating over sentinel entries. -/
def oabssub : Option ℝ → Option ℝ → Option ℝ
  | some a, some b => some |a - b|
  | _, _ => none

/-- IEEE division `Dnext[i] / DN[i]` : the numerator is a finite absolute
difference or NaN, the denominator a (positive) finite distance, `inf` or
NaN.  `finite / inf = 0`, division by zero follows IEEE (`0/0 = NaN`,
positive`/0 = inf`; numerators here are absolute values, hence
nonnegative), and NaN propagates. -/
noncomputable def derivDiv : Option ℝ → Fl ℝ → Fl ℝ
  | none, _ => .nan
  | some _, .nan => .nan
  | some _, .inf => .fin 0
  | some d, .fin r => if r = 0 then (if d = 0 then .nan else .inf) else .fin (d / r)

/-- The per-row derivative ratios `deriv = Dnext / DN[:, 0]` for candidate
lag `tn`, as one list over all rows. -/
noncomputable def derivList (Xf : EMat ℝ) (rows : ℕ) (Nf : ℕ → ℕ)
    (DNf : ℕ → Fl ℝ) (tn : ℕ) : List (Fl ℝ) :=
  (List.range rows).map
    (fun i => derivDiv (oabssub (Xf i tn) (Xf (Nf i) tn)) (DNf i))

/-- The filter
`deriv[logical_and(logical_not(isnan(deriv)), deriv != 0.0)]`. -/
noncomputable def survivors (l : List (Fl ℝ)) : List (Fl ℝ) :=
  l.filter (fun d => !d.isNan && decide (d ≠ Fl.fin 0))

/-- Finite value of a float (survivor lists are all finite, see
`survivors_derivList_all_fin`). -/
def flFinVal : Fl ℝ → ℝ
  | .fin a => a
  | _ => 0

/-- `numpy.exp(numpy.log(deriv).mean())`: the geometric mean of the
surviving derivative ratios; the mean of an empty array is NaN, hence so
is the score of a candidate with no surviving ratios. -/
noncomputable def geoMean (l : List (Fl ℝ)) : Fl ℝ :=
  if l = [] then .nan
  else .fin (Real.exp ((l.map (fun d => Real.log (flFinVal d))).sum / (l.length : ℝ)))

/-- The geometric-mean score of candidate lag `tn` in one iteration. -/
noncomputable def iterScore (Xf : EMat ℝ) (rows : ℕ) (Nf : ℕ → ℕ)
    (DNf : ℕ → Fl ℝ) (tn : ℕ) : Fl ℝ :=
  geoMean (survivors (derivList Xf rows Nf DNf tn))

/-- The `max_deriv` / `max_deriv_tau` accumulation loop: starting from
`max_deriv = 0.0`, `max_deriv_tau = None`, a candidate replaces the
current best exactly when its score compares strictly greater (IEEE `>`,
so NaN scores never win). -/
noncomputable def argmaxFold (s : ℕ → Fl ℝ) (cands : List ℕ) :
    Fl ℝ × Option ℕ :=
  cands.foldl (fun acc t => if flGt (s t) acc.1 then (s t, some t) else acc)
    (Fl.fin 0, none)

/-- The candidate lags `range(taus[-1] + 1, E_max)` of one iteration. -/
def candRange (last E_max : ℕ) : List ℕ :=
  List.range' (last + 1) (E_max - (last + 1))

/-- One iteration's candidate scan (lines choosing `max_deriv_tau`):
`none` models `max_deriv_tau is None`, which raises the embedding
failure. -/
noncomputable def selectTau (Xf : EMat ℝ) (rows m E_max : ℕ)
    (taus : List ℕ) : Option ℕ :=
  (argmaxFold
    (iterScore Xf rows (iterN Xf rows taus m) (iterDN Xf rows taus m))
    (candRange (taus.getLastD 0) E_max)).2

/-- Failure modes of the embedding pipeline: `invalidArgument` models the
`assert`/shape errors, `embeddingFailure` the
`Exception('Embedding identification failed: could not calculate max
derivative.')`. -/
inductive EmbedError where
  | invalidArgument : EmbedError
  | embeddingFailure : EmbedError
deriving DecidableEq

/-- The greedy loop `while taus[-1] < (E_max - 1): …` of
`nichkawde_embedding`. -/
noncomputable def nichkawdeLoop (Xf : EMat ℝ) (rows m E_max : ℕ)
    (taus : List ℕ) : Except EmbedError (List ℕ) :=
  if hlt : taus.getLastD 0 < E_max - 1 then
    match hsel : selectTau Xf rows m E_max taus with
    | none => .error .embeddingFailure
    | some t => nichkawdeLoop Xf rows m E_max (taus ++ [t])
  else .ok taus
termination_by E_max - 1 - taus.getLastD 0
decreasing_by
  rw [List.getLastD_concat]
  have key : ∀ (f : ℕ → Fl ℝ) (c : List ℕ) (acc : Fl ℝ × Option ℕ),
      (List.foldl (fun b u => if flGt (f u) b.1 then (f u, some u) else b) acc c).2 = some t →
        t ∈ c ∨ acc.2 = some t := by
    intro f c
    induction c with
    | nil => intro acc hf; exact Or.inr hf
    | cons a tl ih =>
      intro acc hf
      rw [List.foldl_cons] at hf
      rcases ih _ hf with hm | hm
      · exact Or.inl (List.mem_cons_of_mem _ hm)
      · by_cases hgt : flGt (f a) acc.1
        · rw [if_pos hgt] at hm
          have hta : t = a := by simpa using hm.symm
          exact Or.inl (hta ▸ List.mem_cons_self a tl)
        · rw [if_neg hgt] at hm
          exact Or.inr hm
  unfold selectTau argmaxFold at hsel
  rcases key _ _ _ hsel with hmem | habs
  · rw [candRange] at hmem
    have hb := List.mem_range'_1.mp hmem
    omega
  · exact absurd habs (by simp)

/-- Shallow embedding of `nichkawde_embedding(x, E_max,
neighbor_offset_min, preserve_indices)` (the `print` statement, a pure
side effect, is dropped). -/
noncomputable def nichkawde_embedding (x : ℕ → ℝ) (N E_max m : ℕ)
    (preserve_indices : Bool) : Except EmbedError (List ℕ × EMat ℝ) :=
  match make_full_embedding x N E_max 1 preserve_indices with
  | none => .error .invalidArgument
  | some (rows, Xf) =>
    (nichkawdeLoop Xf rows m E_max [0]).map (fun taus => (taus, projCols Xf taus))

/-- Concrete asymmetric distance matrix used as a test input. -/
def Dex : DMat ℤ :=
  fun i k =>
    if i = 0 ∧ k = 0 then .fin 1
    else if i = 0 ∧ k = 1 then .fin 0
    else if i = 1 ∧ k = 0 then .fin 2
    else .fin 3

/-- The doctest series `[3.0, 1.7, 4.3, 5.4, 8.8, 9.6]`. -/
def xdoc : ℕ → ℚ :=
  fun i => ([3, 17/10, 43/10, 27/5, 44/5, 48/5] : List ℚ).getD i 0

/-- The doctest series `[1.0, 2.0, 3.0, 4.0, 5.0, 6.0]` (integer-valued,
taken over ℤ so that concrete distance computations evaluate). -/
def xseq : ℕ → ℤ :=
  fun i => ([1, 2, 3, 4, 5, 6] : List ℤ).getD i 0

/-- Concrete real series `0, 1, 2, …` used as a test input. -/
noncomputable def xramp : ℕ → ℝ := fun i => (i : ℝ)

/-- Concrete constant real series used as a test input. -/
noncomputable def xconst : ℕ → ℝ := fun _ => (7 : ℝ)

/-! ### Order properties of the sort key -/

theorem flSortLt_irrefl {α : Type} [LinearOrder α] (a : Fl α) :
    ¬ flSortLt a a := by
  cases a <;> simp [flSortLt]

theorem flSortLt_asymm {α : Type} [LinearOrder α] (a b : Fl α)
    (h : flSortLt a b) : ¬ flSortLt b a := by
  cases a <;> cases b <;> simp_all [flSortLt]
  exact le_of_lt h

theorem flSortLt_trans {α : Type} [LinearOrder α] (a b c : Fl α)
    (hab : flSortLt a b) (hbc : flSortLt b c) : flSortLt a c := by
  cases a <;> cases b <;> cases c <;> simp_all [flSortLt]
  exact lt_trans hab hbc

theorem flSortLt_trichot {α : Type} [LinearOrder α] (a b : Fl α) :
    flSortLt a b ∨ a = b ∨ flSortLt b a := by
  cases a <;> cases b <;> simp [flSortLt]
  exact lt_trichotomy _ _

instance {α : Type} [LinearOrder α] (v : ℕ → Fl α) : IsTotal ℕ (idxKey v) := by
  constructor
  intro i j
  rcases flSortLt_trichot (v i) (v j) with h | h | h
  · exact Or.inl (Or.inl h)
  · rcases le_total i j with hle | hle
    · exact Or.inl (Or.inr ⟨h, hle⟩)
    · exact Or.inr (Or.inr ⟨h.symm, hle⟩)
  · exact Or.inr (Or.inl h)

instance {α : Type} [LinearOrder α] (v : ℕ → Fl α) : IsTrans ℕ (idxKey v) := by
  constructor
  intro i j k hij hjk
  rcases hij with hij | ⟨eij, lij⟩
  · rcases hjk with hjk | ⟨ejk, _⟩
    · exact Or.inl (flSortLt_trans _ _ _ hij hjk)
    · exact Or.inl (ejk ▸ hij)
  · rcases hjk with hjk | ⟨ejk, ljk⟩
    · exact Or.inl (eij ▸ hjk)
    · exact Or.inr ⟨eij.trans ejk, le_trans lij ljk⟩

/-- Core properties of the `argpartition(v, range(k))[:k]` model: `k`
indices, all distinct and in range, listed in nondecreasing key order, and
no unselected index carries a strictly smaller value than a selected one. -/
theorem argpartFirstK_spec {α : Type} [LinearOrder α] (n : ℕ) (v : ℕ → Fl α)
    (k : ℕ) (hk : k ≤ n) :
    (argpartFirstK n v k).length = k
    ∧ (argpartFirstK n v k).Nodup
    ∧ (∀ j ∈ argpartFirstK n v k, j < n)
    ∧ List.Pairwise (idxKey v) (argpartFirstK n v k)
    ∧ (∀ j ∈ argpartFirstK n v k, ∀ jq, jq < n → jq ∉ argpartFirstK n v k →
        idxKey v j jq) := by
  have hperm := List.perm_insertionSort (idxKey v) (List.range n)
  have hnd : (List.insertionSort (idxKey v) (List.range n)).Nodup :=
    hperm.nodup_iff.mpr (List.nodup_range n)
  have hsorted : List.Pairwise (idxKey v)
      (List.insertionSort (idxKey v) (List.range n)) :=
    List.sorted_insertionSort (idxKey v) (List.range n)
  refine ⟨?_, ?_, ?_, ?_, ?_⟩
  · rw [argpartFirstK, List.length_take, hperm.length_eq, List.length_range]
    omega
  · exact List.Nodup.sublist (List.take_sublist k _) hnd
  · intro j hj
    have : j ∈ List.range n := hperm.mem_iff.mp (List.mem_of_mem_take hj)
    exact List.mem_range.mp this
  · exact List.Pairwise.sublist (List.take_sublist k _) hsorted
  · intro j hj jq hq hnq
    have hmemL : jq ∈ List.insertionSort (idxKey v) (List.range n) :=
      hperm.mem_iff.mpr (List.mem_range.mpr hq)
    rw [← List.take_append_drop k (List.insertionSort (idxKey v) (List.range n))]
      at hmemL
    have hdrop : jq ∈ (List.insertionSort (idxKey v) (List.range n)).drop k := by
      rcases List.mem_append.mp hmemL with hcase | hcase
      · exact absurd hcase hnq
      · exact hcase
    have hsplit := hsorted
    rw [← List.take_append_drop k (List.insertionSort (idxKey v) (List.range n))]
      at hsplit
    exact (List.pairwise_append.mp hsplit).2.2 j hj jq hdrop

/-! ### Doctest checks (inline executable examples from the source) -/

theorem lagMatrix_doctest :
    lagMatrix xdoc [0, 1, 2] 0 0 = some 3
    ∧ lagMatrix xdoc [0, 1, 2] 0 1 = none
    ∧ lagMatrix xdoc [0, 1, 2] 0 2 = none
    ∧ lagMatrix xdoc [0, 1, 2] 1 1 = some 3
    ∧ lagMatrix xdoc [0, 1, 2] 2 1 = some (17/10)
    ∧ lagMatrix xdoc [0, 1, 2] 5 2 = some (27/5)
    ∧ make_full_embedding xdoc 6 3 1 true = some (6, lagMatrix xdoc [0, 1, 2]) := by
  refine ⟨rfl, rfl, rfl, rfl, rfl, rfl, rfl⟩

theorem squared_euclidean_distance_doctest :
    squared_euclidean_distance (lagMatrix xseq [0, 1, 2]) (lagMatrix xseq [0, 1, 2]) 3 2 2 = Fl.fin 0
    ∧ squared_euclidean_distance (lagMatrix xseq [0, 1, 2]) (lagMatrix xseq [0, 1, 2]) 3 2 3 = Fl.fin 3
    ∧ squared_euclidean_distance (lagMatrix xseq [0, 1, 2]) (lagMatrix xseq [0, 1, 2]) 3 2 4 = Fl.fin 12
    ∧ squared_euclidean_distance (lagMatrix xseq [0, 1, 2]) (lagMatrix xseq [0, 1, 2]) 3 2 5 = Fl.fin 27
    ∧ squared_euclidean_distance (lagMatrix xseq [0, 1, 2]) (lagMatrix xseq [0, 1, 2]) 3 4 3 = Fl.fin 3
    ∧ squared_euclidean_distance (lagMatrix xseq [0, 1, 2]) (lagMatrix xseq [0, 1, 2]) 3 0 2 = Fl.nan := by
  refine ⟨by decide, by decide, by decide, by decide, by decide, by decide⟩

theorem find_neighbors_doctest :
    (find_neighbors
      (assign_diagonal
        (squared_euclidean_distance (lagMatrix xseq [0, 1, 2]) (lagMatrix xseq [0, 1, 2]) 3)
        6 6 0 Fl.inf) 6 1).1 2 = [3]
    ∧ (find_neighbors
      (assign_diagonal
        (squared_euclidean_distance (lagMatrix xseq [0, 1, 2]) (lagMatrix xseq [0, 1, 2]) 3)
        6 6 0 Fl.inf) 6 1).1 3 = [2]
    ∧ (find_neighbors
      (assign_diagonal
        (squared_euclidean_distance (lagMatrix xseq [0, 1, 2]) (lagMatrix xseq [0, 1, 2]) 3)
        6 6 0 Fl.inf) 6 1).1 4 = [3]
    ∧ (find_neighbors
      (assign_diagonal
        (squared_euclidean_distance (lagMatrix xseq [0, 1, 2]) (lagMatrix xseq [0, 1, 2]) 3)
        6 6 0 Fl.inf) 6 1).1 5 = [4] := by
  refine ⟨by decide, by decide, by decide, by decide⟩

/-! ### Claim C1: neighbour selection axis -/

/-- C1 (counterexample): the claim says `findNeighbors(D, k)` returns, for
each row `i`, the `k` column indices with the smallest entries of row
`D[i, ·]`.  On the asymmetric matrix `Dex = [[1, 0], [2, 3]]` with
`k = 1`, the source selects over column `D[:, 0] = [1, 2]` and returns
index `0` with distance `D[0,0] = 1`, although row 0's smallest entry is
`D[0,1] = 0` at index `1`: the row-based reading of the claim is false. -/
theorem find_neighbors_row_claim_cex :
    (find_neighbors Dex 2 1).1 0 = [0]
    ∧ (find_neighbors Dex 2 1).2 0 = [Fl.fin 1]
    ∧ flSortLt (Dex 0 1) (Dex 0 0)
    ∧ ¬ (∀ j ∈ (find_neighbors Dex 2 1).1 0, ∀ jq, jq < 2 →
          ¬ flSortLt (Dex 0 jq) (Dex 0 j)) := by
  refine ⟨by decide, by decide, by decide, by decide⟩

/-- C1 (amended): for every square distance matrix `D` and `1 ≤ k ≤ n`,
`find_neighbors(D, k)` returns, for each row `i`, the `k` indices with the
smallest entries of **column** `D[·, i]` (equivalently of row `i` whenever
`D` is symmetric), in nondecreasing order of that column value, and the
`j`-th returned distance is the entry of `D` at row `i` and the `j`-th
returned index. -/
theorem find_neighbors_column_selection {α : Type} [LinearOrder α]
    (D : DMat α) (n k : ℕ) (hk : k ≤ n) (i : ℕ) :
    ((find_neighbors D n k).1 i).length = k
    ∧ ((find_neighbors D n k).1 i).Nodup
    ∧ (∀ j ∈ (find_neighbors D n k).1 i, j < n)
    ∧ List.Pairwise (fun a b => idxKey (fun j => D j i) a b)
        ((find_neighbors D n k).1 i)
    ∧ (∀ j ∈ (find_neighbors D n k).1 i, ∀ jq, jq < n →
        jq ∉ (find_neighbors D n k).1 i → ¬ flSortLt (D jq i) (D j i))
    ∧ (find_neighbors D n k).2 i =
        ((find_neighbors D n k).1 i).map (fun j => D i j) := by
  obtain ⟨h1, h2, h3, h4, h5⟩ := argpartFirstK_spec n (fun j => D j i) k hk
  refine ⟨h1, h2, h3, h4, ?_, rfl⟩
  intro j hj jq hq hnq
  rcases h5 j hj jq hq hnq with hlt | ⟨heq, _⟩
  · exact flSortLt_asymm _ _ hlt
  · intro hcon
    rw [show D jq i = D j i from heq.symm] at hcon
    exact flSortLt_irrefl _ hcon

/-- C1 (witness): the amended theorem applied to the concrete matrix
`Dex` with `k = 1`, row 0. -/
theorem find_neighbors_column_selection_witness :
    1 ≤ 2
    ∧ (((find_neighbors Dex 2 1).1 0).length = 1
      ∧ ((find_neighbors Dex 2 1).1 0).Nodup
      ∧ (∀ j ∈ (find_neighbors Dex 2 1).1 0, j < 2)
      ∧ List.Pairwise (fun a b => idxKey (fun j => Dex j 0) a b)
          ((find_neighbors Dex 2 1).1 0)
      ∧ (∀ j ∈ (find_neighbors Dex 2 1).1 0, ∀ jq, jq < 2 →
          jq ∉ (find_neighbors Dex 2 1).1 0 → ¬ flSortLt (Dex jq 0) (Dex j 0))
      ∧ (find_neighbors Dex 2 1).2 0 =
          ((find_neighbors Dex 2 1).1 0).map (fun j => Dex 0 j)) :=
  ⟨by decide, find_neighbors_column_selection Dex 2 1 (by decide) 0⟩

/-! ### Claim C9: totality under sentinel-valued entries -/

/-- C9: for every square distance matrix `D` (entries may be `inf` or
NaN after masking) and `1 ≤ k ≤ n`, `find_neighbors(D, k)` always returns
a well-formed result: `k` distinct valid indices with `k` distances per
row, no error; and whenever fewer than `k` entries along row `i`'s
selection axis (column `D[·, i]`) are finite, some returned neighbour
index carries a non-finite (`inf` or NaN) selection value. -/
theorem find_neighbors_total {α : Type} [LinearOrder α] (D : DMat α)
    (n k : ℕ) (hk1 : 1 ≤ k) (hk : k ≤ n) (i : ℕ) :
    ((find_neighbors D n k).1 i).length = k
    ∧ ((find_neighbors D n k).1 i).Nodup
    ∧ (∀ j ∈ (find_neighbors D n k).1 i, j < n)
    ∧ ((find_neighbors D n k).2 i).length = k
    ∧ ((List.range n).countP (fun j => (D j i).isFin) < k →
        ∃ j ∈ (find_neighbors D n k).1 i, (D j i).isFin = false) := by
  obtain ⟨h1, h2, h3, _, _⟩ := argpartFirstK_spec n (fun j => D j i) k hk
  refine ⟨h1, h2, h3, ?_, ?_⟩
  · show (((find_neighbors D n k).1 i).map (fun j => D i j)).length = k
    rw [List.length_map]
    exact h1
  · intro hcount
    by_contra hcon
    push_neg at hcon
    have hall : ∀ j ∈ (find_neighbors D n k).1 i, (D j i).isFin = true := by
      intro j hj
      cases hfin : (D j i).isFin with
      | false => exact absurd hfin (hcon j hj)
      | true => rfl
    have hsub : (find_neighbors D n k).1 i ⊆
        (List.range n).filter (fun j => (D j i).isFin) := by
      intro j hj
      exact List.mem_filter.mpr ⟨List.mem_range.mpr (h3 j hj), hall j hj⟩
    have hle := List.Subperm.length_le (List.subperm_of_subset h2 hsub)
    rw [h1, ← List.countP_eq_length_filter] at hle
    omega

/-- C9 (witness): a 1×1 matrix whose only selection value is `inf` — the
call still returns index 0, whose selection value is not finite. -/
theorem find_neighbors_total_witness :
    (1 ≤ 1 ∧ 1 ≤ 1)
    ∧ (((find_neighbors (fun _ _ => (Fl.inf : Fl ℤ)) 1 1).1 0).length = 1
      ∧ ((find_neighbors (fun _ _ => (Fl.inf : Fl ℤ)) 1 1).1 0).Nodup
      ∧ (∀ j ∈ (find_neighbors (fun _ _ => (Fl.inf : Fl ℤ)) 1 1).1 0, j < 1)
      ∧ ((find_neighbors (fun _ _ => (Fl.inf : Fl ℤ)) 1 1).2 0).length = 1
      ∧ ((List.range 1).countP (fun j => ((fun _ _ => (Fl.inf : Fl ℤ)) j 0).isFin) < 1 →
          ∃ j ∈ (find_neighbors (fun _ _ => (Fl.inf : Fl ℤ)) 1 1).1 0,
            ((fun _ _ => (Fl.inf : Fl ℤ)) j 0).isFin = false)) :=
  ⟨⟨by decide, by decide⟩,
   find_neighbors_total (fun _ _ => (Fl.inf : Fl ℤ)) 1 1 (by decide) (by decide) 0⟩

/-! ### Claim C2: diagonal-band masking frame -/

/-- Entrywise frame property of one masking pass on a square matrix
(shared helper). -/
theorem maskStep_entry_frame {β : Type} (D : ℕ → ℕ → β) (n o : ℕ) (v : β)
    (i k : ℕ) (hi : i < n) (hk : k < n) :
    (o = 0 → maskStep D n n o v i k = if i = k then v else D i k)
    ∧ (0 < o → maskStep D n n o v i k =
        if (k : ℤ) = (i : ℤ) + (o : ℤ) ∨ (k : ℤ) = (i : ℤ) - (o : ℤ) then v
        else D i k) := by
  constructor
  · rintro rfl
    rw [maskStep, if_pos rfl]
    simp only [assign_diagonal]
    split_ifs <;> first | rfl | omega
  · intro ho
    rw [maskStep, if_neg (by omega : ¬ o = 0)]
    simp only [assign_diagonal]
    split_ifs <;> first | rfl | omega

/-- C2: masking with offset 0 sets every diagonal entry `D[i,i]` of a
square matrix to the sentinel and leaves every other entry unchanged;
masking with offset `o > 0` (the pass `assign_diagonal(D, o, v)` followed
by `assign_diagonal(D, -o, v)`) sets exactly the entries `D[i, i+o]` and
`D[i, i-o]` whose column index is valid, leaving all entries outside
those two bands unchanged. -/
theorem maskStep_band_frame {β : Type} (D : ℕ → ℕ → β) (n o : ℕ) (v : β)
    (i k : ℕ) (hi : i < n) (hk : k < n) :
    (o = 0 → maskStep D n n o v i k = if i = k then v else D i k)
    ∧ (0 < o → maskStep D n n o v i k =
        if (k : ℤ) = (i : ℤ) + (o : ℤ) ∨ (k : ℤ) = (i : ℤ) - (o : ℤ) then v
        else D i k) :=
  maskStep_entry_frame D n o v i k hi hk

/-- C2 (witness): the frame theorem applied to a concrete 3×3 matrix with
offset 1, sentinel 99, entry (0, 1). -/
theorem maskStep_band_frame_witness :
    (0 < 3 ∧ 1 < 3)
    ∧ ((1 = 0 → maskStep (fun i k => i * 10 + k) 3 3 1 99 0 1 =
          if 0 = 1 then 99 else (fun i k => i * 10 + k) 0 1)
      ∧ (0 < 1 → maskStep (fun i k => i * 10 + k) 3 3 1 99 0 1 =
          if (1 : ℤ) = (0 : ℤ) + (1 : ℤ) ∨ (1 : ℤ) = (0 : ℤ) - (1 : ℤ) then 99
          else (fun i k => i * 10 + k) 0 1)) :=
  ⟨⟨by decide, by decide⟩,
   maskStep_band_frame (fun i k => i * 10 + k) 3 1 99 0 1 (by decide) (by decide)⟩

/-! ### Claim C4: buildPartial row/entry layout -/

/-- Every member of a list of naturals is bounded by its `foldr max 0`. -/
theorem le_foldr_max {l : List ℕ} {t : ℕ} (h : t ∈ l) : t ≤ l.foldr max 0 := by
  induction l with
  | nil => cases h
  | cons a tl ih =>
    rcases List.mem_cons.mp h with rfl | hm
    · exact le_max_left _ _
    · exact le_trans (ih hm) (le_max_right _ _)

/-- `foldr max 0` of a list bounded by `N` is bounded by `N`. -/
theorem foldr_max_le {l : List ℕ} {N : ℕ} (h : ∀ t ∈ l, t ≤ N) :
    l.foldr max 0 ≤ N := by
  induction l with
  | nil => simp
  | cons a tl ih =>
    rw [List.foldr_cons]
    exact max_le (h a (List.mem_cons_self a tl))
      (ih (fun t ht => h t (List.mem_cons_of_mem a ht)))

/-- C4 (counterexample): the claim quantifies over every lag set of
non-negative lags, but for a lag `tau` with `N < tau < 2N` (here `N = 3`,
`tau = 4`) the slice assignment `X[tau:, j] = x[:(N - tau)]` pairs a
0-row target with a nonempty source, so `make_partial_embedding` fails
with a shape error instead of returning an `N`-row matrix. -/
theorem make_partial_embedding_large_lag_cex :
    make_partial_embedding (fun i => (i : ℤ)) 3 [4] true = none := rfl

/-- C4 (amended): for every series of length `N ≥ 1` and every nonempty
lag set whose lags are all `≤ N`: with `preserve_indices = true` the
result has `N` rows and, for the lag `tau` at column `j`, entry `(i, j)`
is `x[i - tau]` when `tau ≤ i` and the NaN sentinel when `i < tau`; with
`preserve_indices = false` exactly the first `max(taus)` rows are dropped
(row count `N - max(taus)`, entry `(i, j)` is entry `(i + max(taus), j)`
of the preserved matrix) and every remaining entry is non-sentinel. -/
theorem make_partial_embedding_spec {α : Type} (x : ℕ → α) (N : ℕ)
    (taus : List ℕ) (hN : 1 ≤ N) (hne : taus ≠ [])
    (hb : ∀ tau ∈ taus, tau ≤ N) :
    (make_partial_embedding x N taus true = some (N, lagMatrix x taus)
      ∧ (∀ j tau, taus.get? j = some tau →
          (∀ i, tau ≤ i → lagMatrix x taus i j = some (x (i - tau)))
          ∧ (∀ i, i < tau → lagMatrix x taus i j = none)))
    ∧ (make_partial_embedding x N taus false =
        some (N - taus.foldr max 0,
          fun i j => lagMatrix x taus (i + taus.foldr max 0) j)
      ∧ (∀ i j tau, taus.get? j = some tau →
          lagMatrix x taus (i + taus.foldr max 0) j =
            some (x (i + taus.foldr max 0 - tau)))) := by
  have hall : taus.all (fun tau => sliceShapesMatch N tau) = true := by
    rw [List.all_eq_true]
    intro tau htau
    unfold sliceShapesMatch pySliceLen
    rw [if_pos (hb tau htau)]
    exact beq_self_eq_true _
  have hentry : ∀ j tau, taus.get? j = some tau →
      (∀ i, tau ≤ i → lagMatrix x taus i j = some (x (i - tau)))
      ∧ (∀ i, i < tau → lagMatrix x taus i j = none) := by
    intro j tau hget
    constructor
    · intro i hle
      unfold lagMatrix
      rw [hget]
      exact if_pos hle
    · intro i hlt
      unfold lagMatrix
      rw [hget]
      exact if_neg (by omega)
  refine ⟨⟨?_, hentry⟩, ⟨?_, ?_⟩⟩
  · unfold make_partial_embedding
    rw [if_pos hall]
    rfl
  · unfold make_partial_embedding
    rw [if_pos hall]
    cases taus with
    | nil => exact absurd rfl hne
    | cons a tl => rfl
  · intro i j tau hget
    have htle : tau ≤ taus.foldr max 0 := le_foldr_max (List.get?_mem hget)
    exact (hentry j tau hget).1 (i + taus.foldr max 0) (by omega)

/-- C4 (witness): the amended theorem applied to the series `0, 1, 2, …`
of length 3 with lag set `[0, 2]`. -/
theorem make_partial_embedding_spec_witness :
    (1 ≤ 3 ∧ ([0, 2] : List ℕ) ≠ [] ∧ (∀ tau ∈ ([0, 2] : List ℕ), tau ≤ 3))
    ∧ ((make_partial_embedding (fun i => (i : ℤ)) 3 [0, 2] true =
          some (3, lagMatrix (fun i => (i : ℤ)) [0, 2])
        ∧ (∀ j tau, ([0, 2] : List ℕ).get? j = some tau →
            (∀ i, tau ≤ i → lagMatrix (fun i => (i : ℤ)) [0, 2] i j =
              some (((i - tau : ℕ) : ℤ)))
            ∧ (∀ i, i < tau → lagMatrix (fun i => (i : ℤ)) [0, 2] i j = none)))
      ∧ (make_partial_embedding (fun i => (i : ℤ)) 3 [0, 2] false =
          some (3 - ([0, 2] : List ℕ).foldr max 0,
            fun i j => lagMatrix (fun i => (i : ℤ)) [0, 2]
              (i + ([0, 2] : List ℕ).foldr max 0) j)
        ∧ (∀ i j tau, ([0, 2] : List ℕ).get? j = some tau →
            lagMatrix (fun i => (i : ℤ)) [0, 2]
              (i + ([0, 2] : List ℕ).foldr max 0) j =
              some (((i + ([0, 2] : List ℕ).foldr max 0 - tau : ℕ) : ℤ))))) :=
  ⟨⟨by decide, by decide, by decide⟩,
   make_partial_embedding_spec (fun i => (i : ℤ)) 3 [0, 2] (by decide)
     (by decide) (by decide)⟩

/-! ### Claim C8: squared-distance algebra -/

/-- Squaring a NaN-propagating difference is symmetric in its arguments. -/
theorem osub_sq_comm {α : Type} [CommRing α] (a b : Option α) :
    omul (osub a b) (osub a b) = omul (osub b a) (osub b a) := by
  cases a <;> cases b <;> simp only [osub, omul]
  congr 1
  ring

/-- A NaN-free row has a zero squared distance to itself. -/
theorem sq_fold_self_zero {α : Type} [CommRing α] (A : EMat α) (i : ℕ)
    (l : List ℕ) (h : ∀ c ∈ l, (A i c).isSome = true) :
    l.foldl
      (fun acc c => oadd acc (omul (osub (A i c) (A i c)) (osub (A i c) (A i c))))
      (some 0) = some 0 := by
  induction l with
  | nil => rfl
  | cons a tl ih =>
    rw [List.foldl_cons]
    obtain ⟨v, hv⟩ := Option.isSome_iff_exists.mp (h a (List.mem_cons_self a tl))
    rw [hv]
    simp only [osub, omul, oadd]
    rw [show (0 + (v - v) * (v - v) : α) = 0 by ring]
    exact ih (fun c hc => h c (List.mem_cons_of_mem a hc))

/-- C8: the entry formula `squaredDistance(A,B)[i,k] = Σ_c (A[i,c]-B[k,c])²`
holds (with NaN-propagating arithmetic) for all matrices of equal column
count; `squaredDistance(A,A)` is symmetric for every `A`; and the diagonal
entry `(i,i)` is zero provided row `i` of `A` is sentinel-free.  (The
sentinel-free hypothesis is necessary: see
`squared_euclidean_distance_nan_diag_cex`.) -/
theorem squared_euclidean_distance_spec {α : Type} [CommRing α]
    (A B : EMat α) (cols i k : ℕ) :
    squared_euclidean_distance A B cols i k =
      optToFl ((List.range cols).foldl
        (fun acc c => oadd acc (omul (osub (A i c) (B k c)) (osub (A i c) (B k c))))
        (some 0))
    ∧ squared_euclidean_distance A A cols i k =
        squared_euclidean_distance A A cols k i
    ∧ ((∀ c, c < cols → (A i c).isSome = true) →
        squared_euclidean_distance A A cols i i = Fl.fin 0) := by
  refine ⟨?_, ?_, ?_⟩
  · unfold squared_euclidean_distance
    congr 1
    apply List.foldl_ext
    intro acc c _
    rw [osub_sq_comm]
  · unfold squared_euclidean_distance
    congr 1
    apply List.foldl_ext
    intro acc c _
    rw [osub_sq_comm]
  · intro hfin
    unfold squared_euclidean_distance
    rw [sq_fold_self_zero A i (List.range cols)
      (fun c hc => hfin c (List.mem_range.mp hc))]
    rfl

/-- C8 (counterexample): the claim's consequence "`squaredDistance(A,A)`
has a zero diagonal for every `A`" fails on matrices containing the NaN
sentinel: for the 1×1 matrix with a sentinel entry the diagonal entry is
NaN, not 0. -/
theorem squared_euclidean_distance_nan_diag_cex :
    squared_euclidean_distance (fun _ _ => (none : Option ℤ))
      (fun _ _ => (none : Option ℤ)) 1 0 0 = Fl.nan
    ∧ (Fl.nan : Fl ℤ) ≠ Fl.fin 0 := ⟨rfl, by decide⟩

/-- C8 (witness): the theorem applied to a concrete sentinel-free 1-column
matrix. -/
theorem squared_euclidean_distance_spec_witness :
    (squared_euclidean_distance (fun _ _ => (some 5 : Option ℤ))
        (fun _ _ => (some 5 : Option ℤ)) 1 0 0 =
      optToFl ((List.range 1).foldl
        (fun acc c => oadd acc
          (omul (osub ((fun _ _ => (some 5 : Option ℤ)) 0 c) ((fun _ _ => (some 5 : Option ℤ)) 0 c))
            (osub ((fun _ _ => (some 5 : Option ℤ)) 0 c) ((fun _ _ => (some 5 : Option ℤ)) 0 c))))
        (some 0))
    ∧ squared_euclidean_distance (fun _ _ => (some 5 : Option ℤ))
        (fun _ _ => (some 5 : Option ℤ)) 1 0 0 =
      squared_euclidean_distance (fun _ _ => (some 5 : Option ℤ))
        (fun _ _ => (some 5 : Option ℤ)) 1 0 0
    ∧ ((∀ c, c < 1 → ((fun _ _ => (some 5 : Option ℤ)) 0 c).isSome = true) →
        squared_euclidean_distance (fun _ _ => (some 5 : Option ℤ))
          (fun _ _ => (some 5 : Option ℤ)) 1 0 0 = Fl.fin 0))
    ∧ (∀ c, c < 1 → ((fun _ _ => (some 5 : Option ℤ)) 0 c).isSome = true)
    ∧ squared_euclidean_distance (fun _ _ => (some 5 : Option ℤ))
        (fun _ _ => (some 5 : Option ℤ)) 1 0 0 = Fl.fin 0 :=
  ⟨squared_euclidean_distance_spec (fun _ _ => (some 5 : Option ℤ))
      (fun _ _ => (some 5 : Option ℤ)) 1 0 0,
   by decide,
   (squared_euclidean_distance_spec (fun _ _ => (some 5 : Option ℤ))
      (fun _ _ => (some 5 : Option ℤ)) 1 0 0).2.2 (by decide)⟩

/-! ### IEEE-comparison helper lemmas -/

theorem flGt_irrefl {α : Type} [LinearOrder α] (a : Fl α) : ¬ flGt a a := by
  cases a <;> simp [flGt]

theorem flGt_trans {α : Type} [LinearOrder α] (a b c : Fl α)
    (hab : flGt a b) (hbc : flGt b c) : flGt a c := by
  cases a <;> cases b <;> cases c <;> simp_all [flGt]
  exact lt_trans hbc hab

/-- A geometric-mean score is NaN exactly when the surviving-derivative
list is empty. -/
theorem geoMean_eq_nan_iff (l : List (Fl ℝ)) : geoMean l = Fl.nan ↔ l = [] := by
  unfold geoMean
  split_ifs with h
  · simp [h]
  · simp [h]

/-- A geometric-mean score over a nonempty list is strictly positive
(it is `exp` of a real number). -/
theorem geoMean_pos (l : List (Fl ℝ)) (h : l ≠ []) :
    flGt (geoMean l) (Fl.fin 0) := by
  unfold geoMean
  rw [if_neg h]
  show (0 : ℝ) < Real.exp _
  exact Real.exp_pos _

/-! ### Claim C5: masked distance matrix of one iteration -/

/-- Entrywise description of the full Theiler masking loop on a square
`n × n` matrix: entries with `|i - k| < m` become the sentinel, all
others are untouched. -/
theorem maskBand_entry {β : Type} (X : ℕ → ℕ → β) (n m : ℕ) (v : β)
    (i k : ℕ) (hi : i < n) (hk : k < n) :
    maskBand X n n m v i k = if max i k - min i k < m then v else X i k := by
  induction m with
  | zero =>
    rw [if_neg (by omega)]
    rfl
  | succ m ih =>
    have hstep : maskBand X n n (m + 1) v = maskStep (maskBand X n n m v) n n m v := by
      unfold maskBand
      rw [List.range_succ, List.foldl_append, List.foldl_cons, List.foldl_nil]
    rw [hstep]
    rcases Nat.eq_zero_or_pos m with rfl | hm
    · rw [(maskStep_entry_frame (maskBand X n n 0 v) n 0 v i k hi hk).1 rfl]
      have h0 : maskBand X n n 0 v i k = X i k := rfl
      rw [h0]
      split_ifs <;> first | rfl | omega
    · rw [(maskStep_entry_frame (maskBand X n n m v) n m v i k hi hk).2 hm, ih]
      split_ifs <;> first | rfl | omega

/-- C5: in every iteration of the embedding loop, after the exact-match
pass and the Theiler masking passes (in that order), the distance matrix
satisfies: every entry with `|i - k| < neighborOffsetMin` is NaN
(regardless of the underlying distance, so zero distances inside the band
end up NaN, not `inf`); every other entry whose Euclidean distance is
exactly 0 is `inf`; and every remaining entry equals that Euclidean
distance. -/
theorem iterD_masking_spec (Xf : EMat ℝ) (rows m : ℕ) (taus : List ℕ)
    (i k : ℕ) (hi : i < rows) (hk : k < rows) :
    (max i k - min i k < m → iterD Xf rows taus m i k = Fl.nan)
    ∧ (¬ (max i k - min i k < m) →
        ((euclidean_distance (projCols Xf taus) (projCols Xf taus)
            taus.length i k = Fl.fin 0 →
          iterD Xf rows taus m i k = Fl.inf)
        ∧ (euclidean_distance (projCols Xf taus) (projCols Xf taus)
            taus.length i k ≠ Fl.fin 0 →
          iterD Xf rows taus m i k =
            euclidean_distance (projCols Xf taus) (projCols Xf taus)
              taus.length i k))) := by
  have hband := maskBand_entry
    (zeroToInf (euclidean_distance (projCols Xf taus) (projCols Xf taus)
      taus.length)) rows m Fl.nan i k hi hk
  constructor
  · intro hin
    unfold iterD
    rw [hband, if_pos hin]
  · intro hout
    constructor
    · intro hzero
      unfold iterD
      rw [hband, if_neg hout]
      unfold zeroToInf
      rw [if_pos hzero]
    · intro hnz
      unfold iterD
      rw [hband, if_neg hout]
      unfold zeroToInf
      rw [if_neg hnz]

/-- C5 (witness): the masking theorem applied to a concrete 2-row
configuration, band width 1, entries (0,0) and (0,1). -/
theorem iterD_masking_spec_witness :
    (0 < 2 ∧ 1 < 2)
    ∧ ((max 0 0 - min 0 0 < 1 →
        iterD (lagMatrix xconst [0]) 2 [0] 1 0 0 = Fl.nan)
      ∧ (¬ (max 0 0 - min 0 0 < 1) →
        ((euclidean_distance (projCols (lagMatrix xconst [0]) [0])
            (projCols (lagMatrix xconst [0]) [0]) ([0] : List ℕ).length 0 0 = Fl.fin 0 →
          iterD (lagMatrix xconst [0]) 2 [0] 1 0 0 = Fl.inf)
        ∧ (euclidean_distance (projCols (lagMatrix xconst [0]) [0])
            (projCols (lagMatrix xconst [0]) [0]) ([0] : List ℕ).length 0 0 ≠ Fl.fin 0 →
          iterD (lagMatrix xconst [0]) 2 [0] 1 0 0 =
            euclidean_distance (projCols (lagMatrix xconst [0]) [0])
              (projCols (lagMatrix xconst [0]) [0]) ([0] : List ℕ).length 0 0))))
    ∧ ((max 0 1 - min 0 1 < 1 →
        iterD (lagMatrix xconst [0]) 2 [0] 1 0 1 = Fl.nan)
      ∧ (¬ (max 0 1 - min 0 1 < 1) →
        ((euclidean_distance (projCols (lagMatrix xconst [0]) [0])
            (projCols (lagMatrix xconst [0]) [0]) ([0] : List ℕ).length 0 1 = Fl.fin 0 →
          iterD (lagMatrix xconst [0]) 2 [0] 1 0 1 = Fl.inf)
        ∧ (euclidean_distance (projCols (lagMatrix xconst [0]) [0])
            (projCols (lagMatrix xconst [0]) [0]) ([0] : List ℕ).length 0 1 ≠ Fl.fin 0 →
          iterD (lagMatrix xconst [0]) 2 [0] 1 0 1 =
            euclidean_distance (projCols (lagMatrix xconst [0]) [0])
              (projCols (lagMatrix xconst [0]) [0]) ([0] : List ℕ).length 0 1)))) :=
  ⟨⟨by decide, by decide⟩,
   iterD_masking_spec (lagMatrix xconst [0]) 2 1 [0] 0 0 (by decide) (by decide),
   iterD_masking_spec (lagMatrix xconst [0]) 2 1 [0] 0 1 (by decide) (by decide)⟩

/-! ### The candidate-scan fold -/

/-- Full characterization of the `max_deriv` / `max_deriv_tau` scan over a
contiguous candidate range: either no candidate ever compared strictly
greater than the running maximum (which starts at `0.0`) and the result
is `None`, or the scan returns the first candidate attaining the maximal
score, that score being strictly greater than `0.0`. -/
theorem argmaxFold_range_spec (s : ℕ → Fl ℝ) (a : ℕ) : ∀ n : ℕ,
    ((argmaxFold s (List.range' a n)).2 = none
      ∧ (argmaxFold s (List.range' a n)).1 = Fl.fin 0
      ∧ ∀ t ∈ List.range' a n, ¬ flGt (s t) (Fl.fin 0))
    ∨ (∃ t, (argmaxFold s (List.range' a n)).2 = some t
        ∧ t ∈ List.range' a n
        ∧ s t = (argmaxFold s (List.range' a n)).1
        ∧ flGt (argmaxFold s (List.range' a n)).1 (Fl.fin 0)
        ∧ (∀ u ∈ List.range' a n, ¬ flGt (s u) (argmaxFold s (List.range' a n)).1)
        ∧ (∀ u ∈ List.range' a n, s u = (argmaxFold s (List.range' a n)).1 → t ≤ u)) := by
  intro n
  induction n with
  | zero => exact Or.inl ⟨rfl, rfl, by simp⟩
  | succ n ih =>
    have hconc : List.range' a (n + 1) = List.range' a n ++ [a + n] := by
      rw [List.range'_concat]
      simp
    have hfold : argmaxFold s (List.range' a (n + 1)) =
        (if flGt (s (a + n)) (argmaxFold s (List.range' a n)).1
         then (s (a + n), some (a + n)) else argmaxFold s (List.range' a n)) := by
      rw [hconc]
      unfold argmaxFold
      rw [List.foldl_append]
      rfl
    by_cases hgt : flGt (s (a + n)) (argmaxFold s (List.range' a n)).1
    · right
      rw [hfold, if_pos hgt]
      have hpos : flGt (s (a + n)) (Fl.fin 0) := by
        rcases ih with ⟨_, h1, _⟩ | ⟨t, _, _, _, hp, _, _⟩
        · rw [h1] at hgt
          exact hgt
        · exact flGt_trans _ _ _ hgt hp
      refine ⟨a + n, rfl, by rw [hconc]; simp, rfl, hpos, ?_, ?_⟩
      · intro u hu
        rw [hconc] at hu
        rcases List.mem_append.mp hu with hu | hu
        · intro hcon
          rcases ih with ⟨_, h1, hall⟩ | ⟨t, _, _, _, _, hmax, _⟩
          · exact hall u hu (flGt_trans _ _ _ hcon hpos)
          · exact hmax u hu (flGt_trans _ _ _ hcon hgt)
        · have : u = a + n := by simpa using hu
          subst this
          exact flGt_irrefl _
      · intro u hu hequ
        rw [hconc] at hu
        rcases List.mem_append.mp hu with hu | hu
        · exfalso
          rcases ih with ⟨_, h1, hall⟩ | ⟨t, _, _, _, _, hmax, _⟩
          · exact hall u hu (by rw [hequ]; exact hpos)
          · exact hmax u hu (by rw [hequ]; exact hgt)
        · have : u = a + n := by simpa using hu
          omega
    · rw [hfold, if_neg hgt]
      rcases ih with ⟨h2, h1, hall⟩ | ⟨t, h2, hmem, hst, hpos, hmax, hfirst⟩
      · left
        refine ⟨h2, h1, ?_⟩
        intro u hu
        rw [hconc] at hu
        rcases List.mem_append.mp hu with hu | hu
        · exact hall u hu
        · have : u = a + n := by simpa using hu
          subst this
          rw [← h1]
          exact hgt
      · right
        refine ⟨t, h2, by rw [hconc]; exact List.mem_append.mpr (Or.inl hmem),
          hst, hpos, ?_, ?_⟩
        · intro u hu
          rw [hconc] at hu
          rcases List.mem_append.mp hu with hu | hu
          · exact hmax u hu
          · have : u = a + n := by simpa using hu
            subst this
            exact hgt
        · intro u hu hequ
          rw [hconc] at hu
          rcases List.mem_append.mp hu with hu | hu
          · exact hfirst u hu hequ
          · have : u = a + n := by simpa using hu
            subst this
            have := List.mem_range'_1.mp hmem
            omega

/-- A selected candidate lag lies strictly between the last chosen lag and
`E_max`. -/
theorem selectTau_mem_candRange (Xf : EMat ℝ) (rows m E_max : ℕ)
    (taus : List ℕ) (t : ℕ)
    (h : selectTau Xf rows m E_max taus = some t) :
    t ∈ candRange (taus.getLastD 0) E_max
    ∧ taus.getLastD 0 < t ∧ t < E_max := by
  unfold selectTau at h
  rw [candRange] at h
  rcases argmaxFold_range_spec
      (iterScore Xf rows (iterN Xf rows taus m) (iterDN Xf rows taus m))
      (taus.getLastD 0 + 1) (E_max - (taus.getLastD 0 + 1)) with
    ⟨h2, _, _⟩ | ⟨u, h2, hmem, _, _, _, _⟩
  · rw [h2] at h
    exact Option.noConfusion h
  · rw [h2] at h
    have hut : u = t := Option.some.inj h
    subst hut
    have hb := List.mem_range'_1.mp hmem
    refine ⟨by rw [candRange]; exact hmem, by omega, by omega⟩

/-! ### Claim C3: failure condition of one iteration -/

/-- C3: one iteration of the greedy loop raises the embedding failure if
and only if no candidate lag yields a valid (non-empty, hence positive
finite) geometric-mean score: the candidate scan returns `None` exactly
when every candidate's surviving-derivative list is empty; when it
returns a candidate, that candidate lies in the scanned range and no
candidate's score compares strictly greater; and a `None` scan inside the
loop immediately aborts the whole loop with the embedding failure (no
retry, no partial result). -/
theorem embedding_failure_iff (Xf : EMat ℝ) (rows m E_max : ℕ)
    (taus : List ℕ) :
    (selectTau Xf rows m E_max taus = none ↔
      ∀ tn ∈ candRange (taus.getLastD 0) E_max,
        survivors (derivList Xf rows (iterN Xf rows taus m)
          (iterDN Xf rows taus m) tn) = [])
    ∧ (∀ t, selectTau Xf rows m E_max taus = some t →
        t ∈ candRange (taus.getLastD 0) E_max
        ∧ ∀ tn ∈ candRange (taus.getLastD 0) E_max,
            ¬ flGt (iterScore Xf rows (iterN Xf rows taus m)
                (iterDN Xf rows taus m) tn)
              (iterScore Xf rows (iterN Xf rows taus m)
                (iterDN Xf rows taus m) t))
    ∧ (taus.getLastD 0 < E_max - 1 →
        selectTau Xf rows m E_max taus = none →
        nichkawdeLoop Xf rows m E_max taus = .error .embeddingFailure) := by
  have hspec := argmaxFold_range_spec
    (iterScore Xf rows (iterN Xf rows taus m) (iterDN Xf rows taus m))
    (taus.getLastD 0 + 1) (E_max - (taus.getLastD 0 + 1))
  refine ⟨⟨?_, ?_⟩, ?_, ?_⟩
  · intro hnone tn htn
    by_contra hne
    have hpos : flGt (iterScore Xf rows (iterN Xf rows taus m)
        (iterDN Xf rows taus m) tn) (Fl.fin 0) := geoMean_pos _ hne
    unfold selectTau at hnone
    rw [candRange] at hnone htn
    rcases hspec with ⟨_, _, hall⟩ | ⟨u, h2, _, _, _, _, _⟩
    · exact hall tn htn hpos
    · rw [h2] at hnone
      exact Option.noConfusion hnone
  · intro hall
    unfold selectTau
    rw [candRange]
    rcases hspec with ⟨h2, _, _⟩ | ⟨u, h2, hmem, hst, hpos, _, _⟩
    · exact h2
    · exfalso
      have hemp := hall u (by rw [candRange]; exact hmem)
      have hnan : iterScore Xf rows (iterN Xf rows taus m)
          (iterDN Xf rows taus m) u = Fl.nan := by
        show geoMean _ = Fl.nan
        rw [geoMean_eq_nan_iff]
        exact hemp
      rw [hnan] at hst
      rw [← hst] at hpos
      simp [flGt] at hpos
  · intro t ht
    obtain ⟨hmem, _, _⟩ := selectTau_mem_candRange Xf rows m E_max taus t ht
    refine ⟨hmem, ?_⟩
    intro tn htn
    unfold selectTau at ht
    rw [candRange] at ht htn
    rcases hspec with ⟨h2, _, _⟩ | ⟨u, h2, _, hust, _, humax, _⟩
    · rw [h2] at ht
      exact Option.noConfusion ht
    · rw [h2] at ht
      have hut : u = t := Option.some.inj ht
      subst hut
      rw [hust]
      exact humax tn htn
  · intro hguard hnone
    rw [nichkawdeLoop]
    rw [dif_pos hguard]
    split
    · rfl
    · rename_i t heq
      rw [hnone] at heq
      exact Option.noConfusion heq

/-! ### Claim C10: determinism and tie-breaking -/

/-- C10: the embedding is deterministic (two runs on identical inputs
return identical results), and when the candidate scan selects a lag `t`,
every candidate whose geometric-mean score equals `t`'s score is `≥ t`:
on equal scores the first encountered (smallest) candidate lag wins. -/
theorem nichkawde_deterministic_tiebreak :
    (∀ (x : ℕ → ℝ) (N E_max m : ℕ) (p : Bool)
        (r1 r2 : Except EmbedError (List ℕ × EMat ℝ)),
        nichkawde_embedding x N E_max m p = r1 →
        nichkawde_embedding x N E_max m p = r2 → r1 = r2)
    ∧ (∀ (Xf : EMat ℝ) (rows m E_max : ℕ) (taus : List ℕ) (t : ℕ),
        selectTau Xf rows m E_max taus = some t →
        ∀ tn ∈ candRange (taus.getLastD 0) E_max,
          iterScore Xf rows (iterN Xf rows taus m) (iterDN Xf rows taus m) tn =
            iterScore Xf rows (iterN Xf rows taus m) (iterDN Xf rows taus m) t →
          t ≤ tn) := by
  constructor
  · intro x N E_max m p r1 r2 h1 h2
    rw [← h1, ← h2]
  · intro Xf rows m E_max taus t ht tn htn heq
    unfold selectTau at ht
    rw [candRange] at ht htn
    rcases argmaxFold_range_spec
        (iterScore Xf rows (iterN Xf rows taus m) (iterDN Xf rows taus m))
        (taus.getLastD 0 + 1) (E_max - (taus.getLastD 0 + 1)) with
      ⟨h2, _, _⟩ | ⟨u, h2, _, hust, _, _, hufirst⟩
    · rw [h2] at ht
      exact Option.noConfusion ht
    · rw [h2] at ht
      have hut : u = t := Option.some.inj ht
      subst hut
      exact hufirst tn htn (heq.trans hust)

/-! ### The greedy loop: invariants and termination bounds -/

/-- Invariant of the greedy loop: starting from a nonempty, strictly
increasing lag tuple bounded by `E_max`, a successful run preserves the
head, strict increase and the bound, and performs at most
`E_max - 1 - taus[-1]` further appends. -/
theorem nichkawdeLoop_ok_inv (Xf : EMat ℝ) (rows m E_max : ℕ) :
    ∀ (b : ℕ) (taus res : List ℕ),
      E_max - 1 - taus.getLastD 0 ≤ b →
      taus ≠ [] →
      List.Chain' (· < ·) taus →
      (∀ t ∈ taus, t < E_max) →
      nichkawdeLoop Xf rows m E_max taus = .ok res →
      res.head? = taus.head? ∧ List.Chain' (· < ·) res
      ∧ (∀ t ∈ res, t < E_max)
      ∧ res.length ≤ taus.length + (E_max - 1 - taus.getLastD 0) := by
  intro b
  induction b with
  | zero =>
    intro taus res hb hne hch hbd hok
    rw [nichkawdeLoop, dif_neg (by omega)] at hok
    have heq : taus = res := by simpa using hok
    subst heq
    exact ⟨rfl, hch, hbd, by omega⟩
  | succ b ih =>
    intro taus res hb hne hch hbd hok
    rw [nichkawdeLoop] at hok
    by_cases hg : taus.getLastD 0 < E_max - 1
    · rw [dif_pos hg] at hok
      split at hok
      · exact absurd hok (by simp)
      · rename_i t hsel
        obtain ⟨_, hlt, hub⟩ := selectTau_mem_candRange Xf rows m E_max taus t hsel
        have hlast : (taus ++ [t]).getLastD 0 = t := List.getLastD_concat 0 t taus
        have hch2 : List.Chain' (· < ·) (taus ++ [t]) := by
          apply List.Chain'.append hch (List.chain'_singleton t)
          intro x hx y hy
          simp at hy
          subst hy
          have hx2 : taus.getLastD 0 = x := by
            rw [List.getLastD_eq_getLast? 0 taus]
            cases hl : taus.getLast? with
            | none => rw [hl] at hx; cases hx
            | some y2 => rw [hl] at hx; simp at hx; simp [hx]
          omega
        have hbd2 : ∀ u ∈ taus ++ [t], u < E_max := by
          intro u hu
          rcases List.mem_append.mp hu with hu | hu
          · exact hbd u hu
          · simp at hu
            omega
        obtain ⟨hh, hc, hb2, hl2⟩ :=
          ih (taus ++ [t]) res (by rw [hlast]; omega) (by simp) hch2 hbd2 hok
        refine ⟨?_, hc, hb2, ?_⟩
        · rw [hh]
          cases taus with
          | nil => exact absurd rfl hne
          | cons a l => rfl
        · rw [hlast, List.length_append] at hl2
          simp at hl2
          omega
    · rw [dif_neg hg] at hok
      have heq : taus = res := by simpa using hok
      subst heq
      exact ⟨rfl, hch, hbd, by omega⟩

/-! ### Claim C6: termination bounds of the greedy loop -/

/-- C6: whenever the embedding succeeds, the returned lag tuple is
strictly increasing (each iteration appended a lag strictly greater than
the previously appended one), every lag is at most `E_max - 1`, and the
loop performed at most `E_max - 1` iterations (the tuple grew from the
seed `(0,)` by one lag per iteration). -/
theorem nichkawde_termination_bounds (x : ℕ → ℝ) (N E_max m : ℕ) (p : Bool)
    (taus : List ℕ) (M : EMat ℝ)
    (hok : nichkawde_embedding x N E_max m p = .ok (taus, M)) :
    List.Chain' (· < ·) taus
    ∧ (∀ t ∈ taus, t ≤ E_max - 1)
    ∧ taus.length - 1 ≤ E_max - 1 := by
  unfold nichkawde_embedding at hok
  split at hok
  · exact absurd hok (by simp)
  · rename_i rows Xf hmf
    have hE : 0 < E_max := by
      unfold make_full_embedding at hmf
      by_cases hE2 : 0 < E_max ∧ 0 < 1
      · exact hE2.1
      · rw [if_neg hE2] at hmf
        exact Option.noConfusion hmf
    cases hloop : nichkawdeLoop Xf rows m E_max [0] with
    | error e =>
      rw [hloop] at hok
      exact absurd hok (by simp [Except.map])
    | ok res =>
      rw [hloop] at hok
      simp only [Except.map, Except.ok.injEq, Prod.mk.injEq] at hok
      obtain ⟨hres, _⟩ := hok
      subst hres
      obtain ⟨_, hc, hb2, hl2⟩ := nichkawdeLoop_ok_inv Xf rows m E_max
        (E_max - 1 - List.getLastD [0] 0) [0] res (le_refl _) (by simp)
        (List.chain'_singleton 0) (by simpa using hE) hloop
      refine ⟨hc, ?_, ?_⟩
      · intro t ht
        have := hb2 t ht
        omega
      · simp at hl2
        omega

/-! ### Claim C7: shape of the returned value -/

/-- C7: whenever the embedding succeeds, the returned lag tuple is a
strictly increasing sequence of naturals that starts at 0 with every lag
at most `E_max - 1`, and the returned matrix is exactly the full
candidate matrix `X_full` projected onto the returned lag columns (same
rows, one column per chosen lag, in choice order). -/
theorem nichkawde_return_invariants (x : ℕ → ℝ) (N E_max m : ℕ) (p : Bool)
    (taus : List ℕ) (M : EMat ℝ)
    (hok : nichkawde_embedding x N E_max m p = .ok (taus, M)) :
    taus.head? = some 0
    ∧ List.Chain' (· < ·) taus
    ∧ (∀ t ∈ taus, t ≤ E_max - 1)
    ∧ (∀ rows Xf, make_full_embedding x N E_max 1 p = some (rows, Xf) →
        M = projCols Xf taus) := by
  unfold nichkawde_embedding at hok
  split at hok
  · exact absurd hok (by simp)
  · rename_i rows Xf hmf
    have hE : 0 < E_max := by
      unfold make_full_embedding at hmf
      by_cases hE2 : 0 < E_max ∧ 0 < 1
      · exact hE2.1
      · rw [if_neg hE2] at hmf
        exact Option.noConfusion hmf
    cases hloop : nichkawdeLoop Xf rows m E_max [0] with
    | error e =>
      rw [hloop] at hok
      exact absurd hok (by simp [Except.map])
    | ok res =>
      rw [hloop] at hok
      simp only [Except.map, Except.ok.injEq, Prod.mk.injEq] at hok
      obtain ⟨hres, hM⟩ := hok
      subst hres
      obtain ⟨hh, hc, hb2, _⟩ := nichkawdeLoop_ok_inv Xf rows m E_max
        (E_max - 1 - List.getLastD [0] 0) [0] res (le_refl _) (by simp)
        (List.chain'_singleton 0) (by simpa using hE) hloop
      refine ⟨by simpa using hh, hc, ?_, ?_⟩
      · intro t ht
        have := hb2 t ht
        omega
      · intro rows2 Xf2 hmf2
        rw [hmf] at hmf2
        have h1 : Xf = Xf2 := (Prod.mk.injEq _ _ _ _).mp (Option.some.inj hmf2) |>.2
        rw [← hM, h1]

/-! ### Concrete evaluations of the real-valued stage -/

/-- A one-column embedding of the constant series with `E_max = 1`: the
loop guard is false immediately and the seed lag set `(0,)` is returned
with its projection. -/
theorem nichkawde_const_eval :
    nichkawde_embedding xconst 1 1 0 true =
      .ok ([0], projCols (lagMatrix xconst [0]) [0]) := by
  have hmf : make_full_embedding xconst 1 1 1 true =
      some (1, lagMatrix xconst [0]) := rfl
  unfold nichkawde_embedding
  rw [hmf]
  show (nichkawdeLoop (lagMatrix xconst [0]) 1 0 1 [0]).map
      (fun taus => (taus, projCols (lagMatrix xconst [0]) taus)) = _
  rw [nichkawdeLoop, dif_neg (by decide)]
  rfl

/-- On the constant series with two candidate columns, the single
candidate lag's derivative list is all-NaN (the lag-1 column's sentinel
poisons every row through the neighbour map), so no derivative survives. -/
theorem survivors_const_empty :
    ∀ tn ∈ candRange (List.getLastD [0] 0) 2,
      survivors (derivList (lagMatrix xconst [0, 1]) 1
        (iterN (lagMatrix xconst [0, 1]) 1 [0] 0)
        (iterDN (lagMatrix xconst [0, 1]) 1 [0] 0) tn) = [] := by
  intro tn htn
  rw [show candRange (List.getLastD [0] 0) 2 = [1] from rfl] at htn
  have htn1 : tn = 1 := by simpa using htn
  subst htn1
  rfl

/-- `sqrt 4 = 2`. -/
theorem sqrt_four_eq_two : Real.sqrt 4 = 2 := by
  rw [show (4 : ℝ) = 2 ^ 2 by norm_num, Real.sqrt_sq (by norm_num : (0 : ℝ) ≤ 2)]

/-- Closed form of the one-column Euclidean distance on the ramp series. -/
theorem ED_ramp_eval (i k : ℕ) :
    euclidean_distance (projCols (lagMatrix xramp [0, 1]) [0])
      (projCols (lagMatrix xramp [0, 1]) [0]) ([0] : List ℕ).length i k =
    Fl.fin (Real.sqrt (((k : ℝ) - (i : ℝ)) * ((k : ℝ) - (i : ℝ)))) := by
  show flSqrt (optToFl (oadd (some 0)
      (omul
        (osub (if (0 : ℕ) ≤ k then some (((k - 0 : ℕ)) : ℝ) else none)
          (if (0 : ℕ) ≤ i then some (((i - 0 : ℕ)) : ℝ) else none))
        (osub (if (0 : ℕ) ≤ k then some (((k - 0 : ℕ)) : ℝ) else none)
          (if (0 : ℕ) ≤ i then some (((i - 0 : ℕ)) : ℝ) else none))))) =
    Fl.fin (Real.sqrt (((k : ℝ) - (i : ℝ)) * ((k : ℝ) - (i : ℝ))))
  rw [if_pos (Nat.zero_le k), if_pos (Nat.zero_le i), Nat.sub_zero, Nat.sub_zero]
  show (if (0 : ℝ) + ((k : ℝ) - (i : ℝ)) * ((k : ℝ) - (i : ℝ)) < 0
      then Fl.nan
      else Fl.fin (Real.sqrt ((0 : ℝ) + ((k : ℝ) - (i : ℝ)) * ((k : ℝ) - (i : ℝ))))) =
    Fl.fin (Real.sqrt (((k : ℝ) - (i : ℝ)) * ((k : ℝ) - (i : ℝ))))
  rw [if_neg (not_lt.mpr (by nlinarith [mul_self_nonneg ((k : ℝ) - (i : ℝ))])),
    zero_add]

/-- With `neighbor_offset_min = 0` no masking pass runs. -/
theorem iterD_ramp_zero :
    iterD (lagMatrix xramp [0, 1]) 3 [0] 0 =
      zeroToInf (euclidean_distance (projCols (lagMatrix xramp [0, 1]) [0])
        (projCols (lagMatrix xramp [0, 1]) [0]) ([0] : List ℕ).length) := rfl

theorem Dr00 : iterD (lagMatrix xramp [0, 1]) 3 [0] 0 0 0 = Fl.inf := by
  rw [iterD_ramp_zero]
  unfold zeroToInf
  rw [ED_ramp_eval 0 0]
  norm_num [Real.sqrt_zero]

theorem Dr11 : iterD (lagMatrix xramp [0, 1]) 3 [0] 0 1 1 = Fl.inf := by
  rw [iterD_ramp_zero]
  unfold zeroToInf
  rw [ED_ramp_eval 1 1]
  norm_num [Real.sqrt_zero]

theorem Dr22 : iterD (lagMatrix xramp [0, 1]) 3 [0] 0 2 2 = Fl.inf := by
  rw [iterD_ramp_zero]
  unfold zeroToInf
  rw [ED_ramp_eval 2 2]
  norm_num [Real.sqrt_zero]

theorem Dr01 : iterD (lagMatrix xramp [0, 1]) 3 [0] 0 0 1 = Fl.fin 1 := by
  rw [iterD_ramp_zero]
  unfold zeroToInf
  rw [ED_ramp_eval 0 1]
  norm_num [Real.sqrt_one, Fl.fin.injEq]

theorem Dr10 : iterD (lagMatrix xramp [0, 1]) 3 [0] 0 1 0 = Fl.fin 1 := by
  rw [iterD_ramp_zero]
  unfold zeroToInf
  rw [ED_ramp_eval 1 0]
  norm_num [Real.sqrt_one, Fl.fin.injEq]

theorem Dr12 : iterD (lagMatrix xramp [0, 1]) 3 [0] 0 1 2 = Fl.fin 1 := by
  rw [iterD_ramp_zero]
  unfold zeroToInf
  rw [ED_ramp_eval 1 2]
  norm_num [Real.sqrt_one, Fl.fin.injEq]

theorem Dr21 : iterD (lagMatrix xramp [0, 1]) 3 [0] 0 2 1 = Fl.fin 1 := by
  rw [iterD_ramp_zero]
  unfold zeroToInf
  rw [ED_ramp_eval 2 1]
  norm_num [Real.sqrt_one, Fl.fin.injEq]

theorem Dr02 : iterD (lagMatrix xramp [0, 1]) 3 [0] 0 0 2 = Fl.fin 2 := by
  rw [iterD_ramp_zero]
  unfold zeroToInf
  rw [ED_ramp_eval 0 2]
  norm_num [sqrt_four_eq_two, Fl.fin.injEq]

theorem Dr20 : iterD (lagMatrix xramp [0, 1]) 3 [0] 0 2 0 = Fl.fin 2 := by
  rw [iterD_ramp_zero]
  unfold zeroToInf
  rw [ED_ramp_eval 2 0]
  norm_num [sqrt_four_eq_two, Fl.fin.injEq]

/-- Sorted index order of column 0 (`[inf, 1, 2]`): `[1, 2, 0]`. -/
theorem sort_ramp0 :
    List.insertionSort
      (idxKey (fun j => iterD (lagMatrix xramp [0, 1]) 3 [0] 0 j 0))
      (List.range 3) = [1, 2, 0] := by
  have hk12 : idxKey (fun j => iterD (lagMatrix xramp [0, 1]) 3 [0] 0 j 0) 1 2 := by
    apply Or.inl
    show flSortLt (iterD (lagMatrix xramp [0, 1]) 3 [0] 0 1 0)
      (iterD (lagMatrix xramp [0, 1]) 3 [0] 0 2 0)
    rw [Dr10, Dr20]
    show (1 : ℝ) < 2
    norm_num
  have hk01 : ¬ idxKey (fun j => iterD (lagMatrix xramp [0, 1]) 3 [0] 0 j 0) 0 1 := by
    rintro (h | ⟨h, _⟩) <;> simp only [Dr00, Dr10] at h <;> simp [flSortLt] at h
  have hk02 : ¬ idxKey (fun j => iterD (lagMatrix xramp [0, 1]) 3 [0] 0 j 0) 0 2 := by
    rintro (h | ⟨h, _⟩) <;> simp only [Dr00, Dr20] at h <;> simp [flSortLt] at h
  have e2 : List.orderedInsert
      (idxKey (fun j => iterD (lagMatrix xramp [0, 1]) 3 [0] 0 j 0)) 2 [] = [2] := rfl
  have e1 : List.orderedInsert
      (idxKey (fun j => iterD (lagMatrix xramp [0, 1]) 3 [0] 0 j 0)) 1 [2] = [1, 2] := by
    simp only [List.orderedInsert]
    rw [if_pos hk12]
  have e0 : List.orderedInsert
      (idxKey (fun j => iterD (lagMatrix xramp [0, 1]) 3 [0] 0 j 0)) 0 [1, 2] = [1, 2, 0] := by
    simp only [List.orderedInsert]
    rw [if_neg hk01, if_neg hk02]
  rw [show List.range 3 = [0, 1, 2] from rfl]
  simp only [List.insertionSort]
  rw [e2, e1, e0]

/-- Sorted index order of column 1 (`[1, inf, 1]`, tie broken by index):
`[0, 2, 1]`. -/
theorem sort_ramp1 :
    List.insertionSort
      (idxKey (fun j => iterD (lagMatrix xramp [0, 1]) 3 [0] 0 j 1))
      (List.range 3) = [0, 2, 1] := by
  have hk12 : ¬ idxKey (fun j => iterD (lagMatrix xramp [0, 1]) 3 [0] 0 j 1) 1 2 := by
    rintro (h | ⟨h, _⟩) <;> simp only [Dr11, Dr21] at h <;> simp [flSortLt] at h
  have hk02 : idxKey (fun j => iterD (lagMatrix xramp [0, 1]) 3 [0] 0 j 1) 0 2 := by
    apply Or.inr
    constructor
    · show iterD (lagMatrix xramp [0, 1]) 3 [0] 0 0 1 =
        iterD (lagMatrix xramp [0, 1]) 3 [0] 0 2 1
      rw [Dr01, Dr21]
    · norm_num
  have e2 : List.orderedInsert
      (idxKey (fun j => iterD (lagMatrix xramp [0, 1]) 3 [0] 0 j 1)) 2 [] = [2] := rfl
  have e1 : List.orderedInsert
      (idxKey (fun j => iterD (lagMatrix xramp [0, 1]) 3 [0] 0 j 1)) 1 [2] = [2, 1] := by
    simp only [List.orderedInsert]
    rw [if_neg hk12]
  have e0 : List.orderedInsert
      (idxKey (fun j => iterD (lagMatrix xramp [0, 1]) 3 [0] 0 j 1)) 0 [2, 1] = [0, 2, 1] := by
    simp only [List.orderedInsert]
    rw [if_pos hk02]
  rw [show List.range 3 = [0, 1, 2] from rfl]
  simp only [List.insertionSort]
  rw [e2, e1, e0]

/-- Sorted index order of column 2 (`[2, 1, inf]`): `[1, 0, 2]`. -/
theorem sort_ramp2 :
    List.insertionSort
      (idxKey (fun j => iterD (lagMatrix xramp [0, 1]) 3 [0] 0 j 2))
      (List.range 3) = [1, 0, 2] := by
  have hk12 : idxKey (fun j => iterD (lagMatrix xramp [0, 1]) 3 [0] 0 j 2) 1 2 := by
    apply Or.inl
    show flSortLt (iterD (lagMatrix xramp [0, 1]) 3 [0] 0 1 2)
      (iterD (lagMatrix xramp [0, 1]) 3 [0] 0 2 2)
    rw [Dr12, Dr22]
    show True
    trivial
  have hk01 : ¬ idxKey (fun j => iterD (lagMatrix xramp [0, 1]) 3 [0] 0 j 2) 0 1 := by
    rintro (h | ⟨h, _⟩) <;> simp only [Dr02, Dr12] at h
    · have h2 : (1 : ℝ) < 2 := by norm_num
      have h3 : ¬ flSortLt (Fl.fin (2 : ℝ)) (Fl.fin 1) := by
        show ¬ (2 : ℝ) < 1
        norm_num
      exact h3 h
    · simp [Fl.fin.injEq] at h
  have hk02 : idxKey (fun j => iterD (lagMatrix xramp [0, 1]) 3 [0] 0 j 2) 0 2 := by
    apply Or.inl
    show flSortLt (iterD (lagMatrix xramp [0, 1]) 3 [0] 0 0 2)
      (iterD (lagMatrix xramp [0, 1]) 3 [0] 0 2 2)
    rw [Dr02, Dr22]
    show True
    trivial
  have e2 : List.orderedInsert
      (idxKey (fun j => iterD (lagMatrix xramp [0, 1]) 3 [0] 0 j 2)) 2 [] = [2] := rfl
  have e1 : List.orderedInsert
      (idxKey (fun j => iterD (lagMatrix xramp [0, 1]) 3 [0] 0 j 2)) 1 [2] = [1, 2] := by
    simp only [List.orderedInsert]
    rw [if_pos hk12]
  have e0 : List.orderedInsert
      (idxKey (fun j => iterD (lagMatrix xramp [0, 1]) 3 [0] 0 j 2)) 0 [1, 2] = [1, 0, 2] := by
    simp only [List.orderedInsert]
    rw [if_neg hk01, if_pos hk02]
  rw [show List.range 3 = [0, 1, 2] from rfl]
  simp only [List.insertionSort]
  rw [e2, e1, e0]

theorem iterN_ramp0 : iterN (lagMatrix xramp [0, 1]) 3 [0] 0 0 = 1 := by
  unfold iterN find_neighbors argpartFirstK
  show ((List.insertionSort
      (idxKey fun j => iterD (lagMatrix xramp [0, 1]) 3 [0] 0 j 0)
      (List.range 3)).take 1).headD 0 = 1
  rw [sort_ramp0]
  rfl

theorem iterN_ramp1 : iterN (lagMatrix xramp [0, 1]) 3 [0] 0 1 = 0 := by
  unfold iterN find_neighbors argpartFirstK
  show ((List.insertionSort
      (idxKey fun j => iterD (lagMatrix xramp [0, 1]) 3 [0] 0 j 1)
      (List.range 3)).take 1).headD 0 = 0
  rw [sort_ramp1]
  rfl

theorem iterN_ramp2 : iterN (lagMatrix xramp [0, 1]) 3 [0] 0 2 = 1 := by
  unfold iterN find_neighbors argpartFirstK
  show ((List.insertionSort
      (idxKey fun j => iterD (lagMatrix xramp [0, 1]) 3 [0] 0 j 2)
      (List.range 3)).take 1).headD 0 = 1
  rw [sort_ramp2]
  rfl

theorem iterDN_ramp0 : iterDN (lagMatrix xramp [0, 1]) 3 [0] 0 0 = Fl.fin 1 := by
  unfold iterDN find_neighbors argpartFirstK
  show (((List.insertionSort
      (idxKey fun j => iterD (lagMatrix xramp [0, 1]) 3 [0] 0 j 0)
      (List.range 3)).take 1).map
      (fun j => iterD (lagMatrix xramp [0, 1]) 3 [0] 0 0 j)).headD Fl.nan = Fl.fin 1
  rw [sort_ramp0]
  show iterD (lagMatrix xramp [0, 1]) 3 [0] 0 0 1 = Fl.fin 1
  exact Dr01

theorem iterDN_ramp1 : iterDN (lagMatrix xramp [0, 1]) 3 [0] 0 1 = Fl.fin 1 := by
  unfold iterDN find_neighbors argpartFirstK
  show (((List.insertionSort
      (idxKey fun j => iterD (lagMatrix xramp [0, 1]) 3 [0] 0 j 1)
      (List.range 3)).take 1).map
      (fun j => iterD (lagMatrix xramp [0, 1]) 3 [0] 0 1 j)).headD Fl.nan = Fl.fin 1
  rw [sort_ramp1]
  show iterD (lagMatrix xramp [0, 1]) 3 [0] 0 1 0 = Fl.fin 1
  exact Dr10

theorem iterDN_ramp2 : iterDN (lagMatrix xramp [0, 1]) 3 [0] 0 2 = Fl.fin 1 := by
  unfold iterDN find_neighbors argpartFirstK
  show (((List.insertionSort
      (idxKey fun j => iterD (lagMatrix xramp [0, 1]) 3 [0] 0 j 2)
      (List.range 3)).take 1).map
      (fun j => iterD (lagMatrix xramp [0, 1]) 3 [0] 0 2 j)).headD Fl.nan = Fl.fin 1
  rw [sort_ramp2]
  show iterD (lagMatrix xramp [0, 1]) 3 [0] 0 2 1 = Fl.fin 1
  exact Dr21

theorem Xr01 : lagMatrix xramp [0, 1] 0 1 = none := rfl

theorem Xr11 : lagMatrix xramp [0, 1] 1 1 = some (0 : ℝ) := by
  show some (xramp (1 - 1)) = some (0 : ℝ)
  norm_num [xramp]

theorem Xr21 : lagMatrix xramp [0, 1] 2 1 = some (1 : ℝ) := by
  show some (xramp (2 - 1)) = some (1 : ℝ)
  norm_num [xramp]

/-- The derivative list of candidate lag 1 on the ramp scenario: rows 0
and 1 are poisoned by the lag-1 column's sentinel (directly, resp.
through the neighbour), row 2 survives with ratio `1 / 1`. -/
theorem derivList_ramp :
    derivList (lagMatrix xramp [0, 1]) 3 (iterN (lagMatrix xramp [0, 1]) 3 [0] 0)
      (iterDN (lagMatrix xramp [0, 1]) 3 [0] 0) 1 =
    [Fl.nan, Fl.nan, Fl.fin 1] := by
  unfold derivList
  rw [show List.range 3 = [0, 1, 2] from rfl]
  simp only [List.map_cons, List.map_nil]
  rw [iterN_ramp0, iterN_ramp1, iterN_ramp2, iterDN_ramp0, iterDN_ramp1,
    iterDN_ramp2, Xr01, Xr11, Xr21]
  simp only [oabssub, derivDiv]
  rw [if_neg (by norm_num : ¬ (1 : ℝ) = 0)]
  norm_num

theorem survivors_ramp : survivors [Fl.nan, Fl.nan, Fl.fin (1 : ℝ)] = [Fl.fin 1] := by
  have hd : decide (Fl.fin (1 : ℝ) ≠ Fl.fin 0) = true :=
    decide_eq_true (by simp only [ne_eq, Fl.fin.injEq]; norm_num)
  simp only [survivors, List.filter_cons, List.filter_nil, Fl.isNan,
    Bool.not_true, Bool.not_false, Bool.false_and, Bool.true_and, hd]
  rfl

/-- The candidate scan on the ramp scenario selects lag 1. -/
theorem selectTau_ramp_eval :
    selectTau (lagMatrix xramp [0, 1]) 3 0 2 [0] = some 1 := by
  have hscore : iterScore (lagMatrix xramp [0, 1]) 3
      (iterN (lagMatrix xramp [0, 1]) 3 [0] 0)
      (iterDN (lagMatrix xramp [0, 1]) 3 [0] 0) 1 = geoMean [Fl.fin 1] := by
    unfold iterScore
    rw [derivList_ramp, survivors_ramp]
  unfold selectTau argmaxFold
  rw [show candRange (List.getLastD [0] 0) 2 = [1] from rfl]
  simp only [List.foldl_cons, List.foldl_nil]
  rw [hscore]
  rw [if_pos (geoMean_pos [Fl.fin 1] (by simp))]

/-- C3 (witness): on the constant series the single candidate has an
empty surviving-derivative list, the scan returns `None` and the loop
aborts with the embedding failure; on the ramp series the scan selects
lag 1, which lies in the candidate range and is score-maximal. -/
theorem embedding_failure_iff_witness :
    selectTau (lagMatrix xconst [0, 1]) 1 0 2 [0] = none
    ∧ nichkawdeLoop (lagMatrix xconst [0, 1]) 1 0 2 [0] = .error .embeddingFailure
    ∧ selectTau (lagMatrix xramp [0, 1]) 3 0 2 [0] = some 1
    ∧ (1 ∈ candRange (List.getLastD [0] 0) 2
      ∧ ∀ tn ∈ candRange (List.getLastD [0] 0) 2,
          ¬ flGt (iterScore (lagMatrix xramp [0, 1]) 3
              (iterN (lagMatrix xramp [0, 1]) 3 [0] 0)
              (iterDN (lagMatrix xramp [0, 1]) 3 [0] 0) tn)
            (iterScore (lagMatrix xramp [0, 1]) 3
              (iterN (lagMatrix xramp [0, 1]) 3 [0] 0)
              (iterDN (lagMatrix xramp [0, 1]) 3 [0] 0) 1)) := by
  have h1 := (embedding_failure_iff (lagMatrix xconst [0, 1]) 1 0 2 [0]).1.mpr
    survivors_const_empty
  exact ⟨h1,
    (embedding_failure_iff (lagMatrix xconst [0, 1]) 1 0 2 [0]).2.2 (by decide) h1,
    selectTau_ramp_eval,
    (embedding_failure_iff (lagMatrix xramp [0, 1]) 3 0 2 [0]).2.1 1
      selectTau_ramp_eval⟩

/-- C6 (witness): the bounds theorem applied to a concrete successful
run (`E_max = 1`, constant series). -/
theorem nichkawde_termination_bounds_witness :
    nichkawde_embedding xconst 1 1 0 true =
      .ok ([0], projCols (lagMatrix xconst [0]) [0])
    ∧ (List.Chain' (· < ·) ([0] : List ℕ)
      ∧ (∀ t ∈ ([0] : List ℕ), t ≤ 1 - 1)
      ∧ ([0] : List ℕ).length - 1 ≤ 1 - 1) :=
  ⟨nichkawde_const_eval,
   nichkawde_termination_bounds xconst 1 1 0 true [0]
     (projCols (lagMatrix xconst [0]) [0]) nichkawde_const_eval⟩

/-- C7 (witness): the return-shape theorem applied to the same concrete
successful run. -/
theorem nichkawde_return_invariants_witness :
    nichkawde_embedding xconst 1 1 0 true =
      .ok ([0], projCols (lagMatrix xconst [0]) [0])
    ∧ (([0] : List ℕ).head? = some 0
      ∧ List.Chain' (· < ·) ([0] : List ℕ)
      ∧ (∀ t ∈ ([0] : List ℕ), t ≤ 1 - 1)
      ∧ (∀ rows Xf, make_full_embedding xconst 1 1 1 true = some (rows, Xf) →
          projCols (lagMatrix xconst [0]) [0] = projCols Xf [0])) :=
  ⟨nichkawde_const_eval,
   nichkawde_return_invariants xconst 1 1 0 true [0]
     (projCols (lagMatrix xconst [0]) [0]) nichkawde_const_eval⟩

/-- C10 (witness): determinism applied to a concrete run, and the
tie-break theorem applied to the concrete ramp-series scan. -/
theorem nichkawde_deterministic_tiebreak_witness :
    nichkawde_embedding xconst 1 1 0 true = nichkawde_embedding xconst 1 1 0 true
    ∧ selectTau (lagMatrix xramp [0, 1]) 3 0 2 [0] = some 1
    ∧ (∀ tn ∈ candRange (List.getLastD [0] 0) 2,
        iterScore (lagMatrix xramp [0, 1]) 3
            (iterN (lagMatrix xramp [0, 1]) 3 [0] 0)
            (iterDN (lagMatrix xramp [0, 1]) 3 [0] 0) tn =
          iterScore (lagMatrix xramp [0, 1]) 3
            (iterN (lagMatrix xramp [0, 1]) 3 [0] 0)
            (iterDN (lagMatrix xramp [0, 1]) 3 [0] 0) 1 →
        1 ≤ tn) :=
  ⟨nichkawde_deterministic_tiebreak.1 xconst 1 1 0 true
      (nichkawde_embedding xconst 1 1 0 true)
      (nichkawde_embedding xconst 1 1 0 true) rfl rfl,
   selectTau_ramp_eval,
   nichkawde_deterministic_tiebreak.2 (lagMatrix xramp [0, 1]) 3 0 2 [0] 1
     selectTau_ramp_eval⟩
